import Mathlib

/-!
Verification of the portfolio-performance data-processing module
(`src/utilities/data_processing.py`) against its natural-language
specification.  The Python functions are shallowly embedded as
executable Lean definitions; dates appearing in the performance
aggregator are modelled by a calendar `Date` structure, dates in the
daily builders by natural-number day indices, money amounts by `ℚ`,
and float NaN cells by `Option`.
-/

/-! ## Calendar model (for `get_portfolio_performance`) -/

/-- A calendar date: year, month (1..12), day (1..days-in-month). -/
structure Date where
  year : Nat
  month : Nat
  day : Nat
deriving DecidableEq, Repr

/-- Gregorian leap-year rule. -/
def isLeapYear (y : Nat) : Bool :=
  (y % 4 == 0 && y % 100 != 0) || y % 400 == 0

/-- Number of days in a month of a given year. -/
def daysInMonth (y m : Nat) : Nat :=
  if m = 2 then (if isLeapYear y then 29 else 28)
  else if m = 4 ∨ m = 6 ∨ m = 9 ∨ m = 11 then 30
  else 31

/-- The calendar day after `d`. -/
def nextDay (d : Date) : Date :=
  if d.day < daysInMonth d.year d.month then ⟨d.year, d.month, d.day + 1⟩
  else if d.month < 12 then ⟨d.year, d.month + 1, 1⟩
  else ⟨d.year + 1, 1, 1⟩

/-- A date is valid when its month and day are in calendar range. -/
def Date.Valid (d : Date) : Prop :=
  1 ≤ d.month ∧ d.month ≤ 12 ∧ 1 ≤ d.day ∧ d.day ≤ daysInMonth d.year d.month

instance (d : Date) : Decidable d.Valid := by
  unfold Date.Valid; infer_instance

/-- Month counter: months elapsed since year 0, month 1. -/
def monthIdx (d : Date) : Nat :=
  d.year * 12 + (d.month - 1)

/-- Total order key on dates (days are < 32, so the key is strictly
monotone in calendar order for valid dates). -/
def dateKey (d : Date) : Nat :=
  monthIdx d * 32 + d.day

/-- The list of `n` consecutive naturals starting at `a` (the model of a
`period_range` of month counters or years). -/
def idxList : Nat → Nat → List Nat
  | _, 0 => []
  | a, n + 1 => a :: idxList (a + 1) n

/-- The pair `(period.start_time, period.end_time.floor('D'))` for the monthly
period with month counter `k`. -/
def monthWindow (k : Nat) : Date × Date :=
  (⟨k / 12, k % 12 + 1, 1⟩, ⟨k / 12, k % 12 + 1, daysInMonth (k / 12) (k % 12 + 1)⟩)

/-- The pair `(period.start_time, period.end_time.floor('D'))` for the annual
period of year `y`. -/
def yearWindow (y : Nat) : Date × Date :=
  (⟨y, 1, 1⟩, ⟨y, 12, 31⟩)

/-- Model of `[(p.start_time, p.end_time.floor('D')) for p in period_range(start, end, freq)]`. -/
def periodTuples (freq : String) (s e : Date) : List (Date × Date) :=
  if freq = "M" then (idxList (monthIdx s) (monthIdx e + 1 - monthIdx s)).map monthWindow
  else (idxList s.year (e.year + 1 - s.year)).map yearWindow

/-- The override `period_tuples[0] = (start_date, period_tuples[0][1])`. -/
def setFirstStart (s : Date) : List (Date × Date) → List (Date × Date)
  | [] => []
  | (_, b) :: t => (s, b) :: t

/-- The override `period_tuples[-1] = (period_tuples[-1][0], end_date)`. -/
def setLastEnd (e : Date) : List (Date × Date) → List (Date × Date)
  | [] => []
  | [(a, _)] => [(a, e)]
  | x :: y :: t => x :: setLastEnd e (y :: t)

/-- The period windows computed by `get_portfolio_performance`: the
natural calendar periods with the first start and last end overridden
to the global bounds. -/
def perfWindows (freq : String) (s e : Date) : List (Date × Date) :=
  setLastEnd e (setFirstStart s (periodTuples freq s e))

/-- Errors `get_portfolio_performance` can raise: the explicit
`ValueError` on a bad `freq`, the `IndexError` on an empty period
range, and a `KeyError` from a `.at` lookup at a date missing from the
input series. -/
inductive PerfErr where
  | invalidFreq : PerfErr
  | indexError : PerfErr
  | missingDate (d : Date) : PerfErr
deriving DecidableEq, Repr

/-- Lookup `series.at[d, 'value']`: a `KeyError` if `d` is not in the index. -/
def valueAt (f : Date → Option ℚ) (d : Date) : Except PerfErr ℚ :=
  match f d with
  | some v => .ok v
  | none => .error (.missingDate d)

/-- One iteration of the performance loop: the row written at
`e_date`, `('USD value', '% value')`. -/
def windowRow (pv cf : Date → Option ℚ) (w : Date × Date) :
    Except PerfErr (Date × ℚ × ℚ) := do
  let a ← valueAt pv w.1
  let b ← valueAt cf w.1
  let c ← valueAt pv w.2
  let d ← valueAt cf w.2
  let startValue := a + b
  let endValue := c + d
  .ok (w.2, (endValue - startValue,
    if startValue = 0 then 0 else (endValue - startValue) / startValue * 100))

/-- The loop over `period_tuples`, in order. -/
def perfRowsGo (pv cf : Date → Option ℚ) : List (Date × Date) →
    Except PerfErr (List (Date × ℚ × ℚ))
  | [] => .ok []
  | w :: ws => do
    let r ← windowRow pv cf w
    let rest ← perfRowsGo pv cf ws
    .ok (r :: rest)

/-- Model of `get_portfolio_performance(positions_value, cash_flow, start_date,
end_date, freq)`: validates `freq`, builds the period windows with the
boundary overrides, writes the synthetic origin row at `start_date`
and one row per window end.  Rows are listed in write order; a later
write to the same date label overrides an earlier one. -/
def get_portfolio_performance (pv cf : Date → Option ℚ) (s e : Date)
    (freq : String) : Except PerfErr (List (Date × ℚ × ℚ)) :=
  if freq = "M" ∨ freq = "Y" then
    match periodTuples freq s e with
    | [] => .error .indexError
    | _ :: _ => do
      let rows ← perfRowsGo pv cf (perfWindows freq s e)
      .ok ((s, (0, 0)) :: rows)
  else .error .invalidFreq

/-- The value held at index label `d` after all writes: the last write
wins, as in the mutable DataFrame. -/
def rowLookup : List (Date × ℚ × ℚ) → Date → Option (ℚ × ℚ)
  | [], _ => none
  | (d0, v) :: t, d =>
    match rowLookup t d with
    | some r => some r
    | none => if d0 = d then some v else none

/-! ### Window chain lemmas (claim C1) -/

theorem nextDay_monthWindow (k : Nat) :
    nextDay (monthWindow k).2 = (monthWindow (k + 1)).1 := by
  unfold monthWindow nextDay
  simp only
  rcases Nat.lt_or_ge (k % 12) 11 with h | h
  · have h12 : k % 12 + 1 < 12 := by omega
    have hdiv : (k + 1) / 12 = k / 12 := by omega
    have hmod : (k + 1) % 12 = k % 12 + 1 := by omega
    simp [Nat.lt_irrefl, h12, hdiv, hmod]
  · have h11 : k % 12 = 11 := by omega
    have h12 : ¬ (k % 12 + 1 < 12) := by omega
    have hdiv : (k + 1) / 12 = k / 12 + 1 := by omega
    have hmod : (k + 1) % 12 = 0 := by omega
    simp [Nat.lt_irrefl, h12, hdiv, hmod]

theorem nextDay_yearWindow (y : Nat) :
    nextDay (yearWindow y).2 = (yearWindow (y + 1)).1 := by
  simp [yearWindow, nextDay, daysInMonth]

/-- The contiguity relation between consecutive windows. -/
def WinStep (w₁ w₂ : Date × Date) : Prop := w₂.1 = nextDay w₁.2

instance : DecidablePred fun p : (Date × Date) × Date × Date => WinStep p.1 p.2 := by
  intro p; unfold WinStep; infer_instance

instance (w₁ w₂ : Date × Date) : Decidable (WinStep w₁ w₂) := by
  unfold WinStep; infer_instance

theorem chain'_idxList_map {f : Nat → Date × Date}
    (hf : ∀ k, nextDay (f k).2 = (f (k + 1)).1) :
    ∀ (n a : Nat), List.Chain' WinStep ((idxList a n).map f)
  | 0, _ => by simp [idxList]
  | 1, a => by simp [idxList]
  | n + 2, a => by
    have ih := chain'_idxList_map hf (n + 1) (a + 1)
    simp only [idxList, List.map_cons] at ih ⊢
    exact List.Chain'.cons (by exact (hf a).symm) ih

theorem chain'_setFirstStart (s : Date) (l : List (Date × Date))
    (h : List.Chain' WinStep l) : List.Chain' WinStep (setFirstStart s l) := by
  cases l with
  | nil => simp [setFirstStart]
  | cons a t =>
    obtain ⟨a1, a2⟩ := a
    simp only [setFirstStart]
    rw [List.chain'_cons'] at h ⊢
    refine ⟨?_, h.2⟩
    intro b hb
    exact h.1 b hb

theorem chain'_setLastEnd (e : Date) :
    ∀ (l : List (Date × Date)), List.Chain' WinStep l →
      List.Chain' WinStep (setLastEnd e l)
  | [], _ => by simp [setLastEnd]
  | [(a, b)], _ => by simp [setLastEnd]
  | (a1, a2) :: (b1, b2) :: t, h => by
    rw [List.chain'_cons] at h
    have ih := chain'_setLastEnd e ((b1, b2) :: t) h.2
    simp only [setLastEnd]
    cases t with
    | nil =>
      simp only [setLastEnd] at ih ⊢
      exact List.chain'_cons.mpr ⟨h.1, ih⟩
    | cons c u =>
      simp only [setLastEnd] at ih ⊢
      exact List.chain'_cons.mpr ⟨h.1, ih⟩

theorem setFirstStart_head (s : Date) (x : Date × Date) (t : List (Date × Date)) :
    setFirstStart s (x :: t) = (s, x.2) :: t := by
  obtain ⟨a, b⟩ := x; rfl

theorem setLastEnd_getLast (e : Date) :
    ∀ (l : List (Date × Date)), l ≠ [] →
      ∃ a, (setLastEnd e l).getLast? = some (a, e)
  | [], h => absurd rfl h
  | [(a, b)], _ => ⟨a, by simp [setLastEnd]⟩
  | (a1, a2) :: (b1, b2) :: t, _ => by
    obtain ⟨a, ha⟩ := setLastEnd_getLast e ((b1, b2) :: t) (by simp)
    refine ⟨a, ?_⟩
    simp only [setLastEnd]
    rw [List.getLast?_cons]
    cases t with
    | nil => simpa [setLastEnd] using ha
    | cons c u =>
      simp only [setLastEnd] at ha ⊢
      rw [ha]
      rcases (setLastEnd e (c :: u)) with _ | ⟨y, ys⟩ <;> simp_all [List.getLast?_cons]

theorem setLastEnd_head_fst (e : Date) :
    ∀ (l : List (Date × Date)), (setLastEnd e l).head?.map Prod.fst = l.head?.map Prod.fst
  | [] => rfl
  | [(a, b)] => rfl
  | (a1, a2) :: (b1, b2) :: t => by simp [setLastEnd]

theorem idxList_ne_nil (a n : Nat) (hn : 0 < n) : idxList a n ≠ [] := by
  cases n with
  | zero => omega
  | succ m => simp [idxList]

theorem setFirstStart_ne_nil (s : Date) (l : List (Date × Date)) (h : l ≠ []) :
    setFirstStart s l ≠ [] := by
  cases l with
  | nil => exact absurd rfl h
  | cons x t => obtain ⟨a, b⟩ := x; simp [setFirstStart]

theorem setLastEnd_ne_nil (e : Date) :
    ∀ (l : List (Date × Date)), l ≠ [] → setLastEnd e l ≠ []
  | [], h => absurd rfl h
  | [(a, b)], _ => by simp [setLastEnd]
  | (a1, a2) :: (b1, b2) :: t, _ => by simp [setLastEnd]

theorem daysInMonth_le (y m : Nat) : daysInMonth y m ≤ 31 := by
  unfold daysInMonth
  split
  · split <;> omega
  · split <;> omega

theorem one_le_daysInMonth (y m : Nat) : 1 ≤ daysInMonth y m := by
  unfold daysInMonth
  split
  · split <;> omega
  · split <;> omega

theorem monthIdx_le_of_key_le {s e : Date} (hs : s.Valid) (he : e.Valid)
    (h : dateKey s ≤ dateKey e) : monthIdx s ≤ monthIdx e := by
  unfold dateKey at h
  have h1 : 1 ≤ s.day := hs.2.2.1
  have h2 : e.day ≤ daysInMonth e.year e.month := he.2.2.2
  have h3 : daysInMonth e.year e.month ≤ 31 := daysInMonth_le e.year e.month
  omega

theorem year_le_of_key_le {s e : Date} (hs : s.Valid) (he : e.Valid)
    (h : dateKey s ≤ dateKey e) : s.year ≤ e.year := by
  have hm := monthIdx_le_of_key_le hs he h
  have h1 : s.month ≤ 12 := hs.2.1
  have h2 : 1 ≤ e.month := he.1
  have h3 : e.month ≤ 12 := he.2.1
  have h4 : 1 ≤ s.month := hs.1
  unfold monthIdx at hm
  omega

theorem periodTuples_ne_nil (freq : String) (s e : Date)
    (hs : s.Valid) (he : e.Valid) (hle : dateKey s ≤ dateKey e) :
    periodTuples freq s e ≠ [] := by
  unfold periodTuples
  split
  · have := monthIdx_le_of_key_le hs he hle
    have hne := idxList_ne_nil (monthIdx s) (monthIdx e + 1 - monthIdx s) (by omega)
    simpa using hne
  · have := year_le_of_key_le hs he hle
    have hne := idxList_ne_nil s.year (e.year + 1 - s.year) (by omega)
    simpa using hne

theorem chain'_periodTuples (freq : String) (s e : Date) :
    List.Chain' WinStep (periodTuples freq s e) := by
  unfold periodTuples
  split
  · exact chain'_idxList_map nextDay_monthWindow _ _
  · exact chain'_idxList_map nextDay_yearWindow _ _

theorem perfWindows_partition_core (freq : String) (s e : Date)
    (hs : s.Valid) (he : e.Valid) (hle : dateKey s ≤ dateKey e) :
    (perfWindows freq s e).head?.map Prod.fst = some s ∧
    (perfWindows freq s e).getLast?.map Prod.snd = some e ∧
    List.Chain' WinStep (perfWindows freq s e) := by
  have hne := periodTuples_ne_nil freq s e hs he hle
  unfold perfWindows
  refine ⟨?_, ?_, ?_⟩
  · rw [setLastEnd_head_fst]
    cases hpt : periodTuples freq s e with
    | nil => exact absurd hpt hne
    | cons x t => rw [setFirstStart_head]; simp
  · obtain ⟨a, ha⟩ := setLastEnd_getLast e (setFirstStart s (periodTuples freq s e))
      (setFirstStart_ne_nil s _ hne)
    rw [ha]; simp
  · exact chain'_setLastEnd e _ (chain'_setFirstStart s _ (chain'_periodTuples freq s e))

/-- Claim C1: for every valid `start_date ≤ end_date` and `freq` in
`{'M','Y'}`, the period windows of `get_portfolio_performance`
partition `[start_date, end_date]` contiguously: the first window
starts exactly at `start_date`, the last window ends exactly at
`end_date`, and each window starts exactly one calendar day after the
previous window ends. -/
theorem perfWindows_partition_c1 (freq : String) (s e : Date)
    (hf : freq = "M" ∨ freq = "Y") (hs : s.Valid) (he : e.Valid)
    (hle : dateKey s ≤ dateKey e) :
    (perfWindows freq s e).head?.map Prod.fst = some s ∧
    (perfWindows freq s e).getLast?.map Prod.snd = some e ∧
    List.Chain' WinStep (perfWindows freq s e) :=
  perfWindows_partition_core freq s e hs he hle

/-- Witness for C1 at a concrete range: January 15 through March 10 of
year 1, monthly windows. -/
theorem perfWindows_partition_c1_witness :
    (perfWindows "M" ⟨1, 1, 15⟩ ⟨1, 3, 10⟩).head?.map Prod.fst = some ⟨1, 1, 15⟩ ∧
    (perfWindows "M" ⟨1, 1, 15⟩ ⟨1, 3, 10⟩).getLast?.map Prod.snd = some ⟨1, 3, 10⟩ ∧
    List.Chain' WinStep (perfWindows "M" ⟨1, 1, 15⟩ ⟨1, 3, 10⟩) :=
  perfWindows_partition_c1 "M" ⟨1, 1, 15⟩ ⟨1, 3, 10⟩ (Or.inl rfl)
    (by decide) (by decide) (by decide)

/-! ### Window end dates are strictly increasing (needed for claim C2) -/

/-- Window ends in strictly increasing calendar order. -/
def KeyLt (w₁ w₂ : Date × Date) : Prop := dateKey w₁.2 < dateKey w₂.2

instance : IsTrans (Date × Date) KeyLt := ⟨fun _ _ _ h₁ h₂ => Nat.lt_trans h₁ h₂⟩

instance (w₁ w₂ : Date × Date) : Decidable (KeyLt w₁ w₂) := by
  unfold KeyLt; infer_instance

/-- Well-formedness of a window: its end has calendar-range month and
day fields and its start does not come after its end. -/
def WinOk (w : Date × Date) : Prop :=
  1 ≤ w.2.month ∧ w.2.month ≤ 12 ∧ w.2.day ≤ 31 ∧ dateKey w.1 ≤ dateKey w.2

theorem dateKey_lt_nextDay (d : Date) (h1 : 1 ≤ d.month) (h2 : d.month ≤ 12)
    (h3 : d.day ≤ 31) : dateKey d < dateKey (nextDay d) := by
  unfold nextDay
  split
  · unfold dateKey monthIdx; simp only; omega
  · split
    · unfold dateKey monthIdx; simp only; omega
    · unfold dateKey monthIdx; simp only; omega

theorem chain'_keyLt_of_winStep :
    ∀ (l : List (Date × Date)), List.Chain' WinStep l → (∀ w ∈ l, WinOk w) →
      List.Chain' KeyLt l
  | [] => by simp
  | [w] => by simp
  | w₁ :: w₂ :: t => by
    intro hc hok
    rw [List.chain'_cons] at hc ⊢
    have ih := chain'_keyLt_of_winStep (w₂ :: t) hc.2
      (fun w hw => hok w (List.mem_cons_of_mem _ hw))
    refine ⟨?_, ih⟩
    have h1 := hok w₁ (by simp)
    have h2 := hok w₂ (by simp)
    have hlt : dateKey w₁.2 < dateKey (nextDay w₁.2) :=
      dateKey_lt_nextDay w₁.2 h1.1 h1.2.1 h1.2.2.1
    have hstep : w₂.1 = nextDay w₁.2 := hc.1
    have hle2 : dateKey w₂.1 ≤ dateKey w₂.2 := h2.2.2.2
    rw [hstep] at hle2
    unfold KeyLt
    omega

theorem winOk_monthWindow (k : Nat) : WinOk (monthWindow k) := by
  unfold WinOk monthWindow dateKey monthIdx
  have h1 := one_le_daysInMonth (k / 12) (k % 12 + 1)
  have h2 := daysInMonth_le (k / 12) (k % 12 + 1)
  simp only
  omega

theorem winOk_yearWindow (y : Nat) : WinOk (yearWindow y) := by
  unfold WinOk yearWindow dateKey monthIdx
  simp only
  omega

theorem winOk_periodTuples (freq : String) (s e : Date) :
    ∀ w ∈ periodTuples freq s e, WinOk w := by
  intro w hw
  unfold periodTuples at hw
  rcases Decidable.em (freq = "M") with hM | hM
  · rw [if_pos hM] at hw
    obtain ⟨k, _, rfl⟩ := List.mem_map.mp hw
    exact winOk_monthWindow k
  · rw [if_neg hM] at hw
    obtain ⟨y, _, rfl⟩ := List.mem_map.mp hw
    exact winOk_yearWindow y

theorem idxList_getLast? (a : Nat) :
    ∀ n, 0 < n → (idxList a n).getLast? = some (a + n - 1) := by
  intro n
  induction n generalizing a with
  | zero => omega
  | succ m ih =>
    intro _
    cases m with
    | zero => simp [idxList]
    | succ p =>
      have := ih (a := a + 1) (by omega)
      simp only [idxList] at this ⊢
      rw [List.getLast?_cons, this]
      simp only [Option.getD_some]
      congr 1
      omega

theorem idxList_head? (a n : Nat) (hn : 0 < n) : (idxList a n).head? = some a := by
  cases n with
  | zero => omega
  | succ m => simp [idxList]

/-- A valid date's month counter decomposes back into its year and
month fields. -/
theorem monthWindow_monthIdx_eq {s : Date} (h1 : 1 ≤ s.month) (h2 : s.month ≤ 12) :
    monthWindow (monthIdx s) =
      (⟨s.year, s.month, 1⟩, ⟨s.year, s.month, daysInMonth s.year s.month⟩) := by
  have hdiv : monthIdx s / 12 = s.year := by unfold monthIdx; omega
  have hmod : monthIdx s % 12 + 1 = s.month := by unfold monthIdx; omega
  unfold monthWindow
  rw [hdiv, hmod]

/-- The first natural period window of a valid date is the period
containing it: its start key is at most the date's key. -/
theorem key_le_firstWindowEnd_M {s : Date} (hs : s.Valid) :
    dateKey s ≤ dateKey (monthWindow (monthIdx s)).2 := by
  rw [monthWindow_monthIdx_eq hs.1 hs.2.1]
  have hday : s.day ≤ daysInMonth s.year s.month := hs.2.2.2
  unfold dateKey monthIdx
  simp only
  omega

theorem key_le_firstWindowEnd_Y {s : Date} (hs : s.Valid) :
    dateKey s ≤ dateKey (yearWindow s.year).2 := by
  have h1 : 1 ≤ s.month := hs.1
  have h2 : s.month ≤ 12 := hs.2.1
  have hday : s.day ≤ daysInMonth s.year s.month := hs.2.2.2
  have h31 := daysInMonth_le s.year s.month
  unfold yearWindow dateKey monthIdx
  simp only
  omega

theorem lastWindowStart_key_le_M {e : Date} (he : e.Valid) :
    dateKey (monthWindow (monthIdx e)).1 ≤ dateKey e := by
  rw [monthWindow_monthIdx_eq he.1 he.2.1]
  have hday : 1 ≤ e.day := he.2.2.1
  unfold dateKey monthIdx
  simp only
  omega

theorem lastWindowStart_key_le_Y {e : Date} (he : e.Valid) :
    dateKey (yearWindow e.year).1 ≤ dateKey e := by
  have h1 : 1 ≤ e.month := he.1
  have hday : 1 ≤ e.day := he.2.2.1
  unfold yearWindow dateKey monthIdx
  simp only
  omega

theorem mem_setLastEnd {e : Date} {w : Date × Date} :
    ∀ {l : List (Date × Date)}, w ∈ setLastEnd e l →
      w ∈ l ∨ ∃ x, l.getLast? = some x ∧ w = (x.1, e)
  | [], h => by simp [setLastEnd] at h
  | [(a, b)], h => by
    simp only [setLastEnd, List.mem_singleton] at h
    exact Or.inr ⟨(a, b), by simp, h⟩
  | (a1, a2) :: (b1, b2) :: t, h => by
    simp only [setLastEnd, List.mem_cons] at h
    rcases h with rfl | h
    · exact Or.inl (by simp)
    · rcases mem_setLastEnd h with h' | ⟨x, hx, rfl⟩
      · exact Or.inl (List.mem_cons_of_mem _ h')
      · refine Or.inr ⟨x, ?_, rfl⟩
        rw [List.getLast?_cons, hx]
        simp

/-- Every window produced by `perfWindows` is well formed, given valid
ordered bounds. -/
theorem winOk_perfWindows (freq : String) (s e : Date)
    (hf : freq = "M" ∨ freq = "Y") (hs : s.Valid) (he : e.Valid)
    (hle : dateKey s ≤ dateKey e) :
    ∀ w ∈ perfWindows freq s e, WinOk w := by
  intro w hw
  unfold perfWindows at hw
  have heBound : 1 ≤ e.month ∧ e.month ≤ 12 ∧ e.day ≤ 31 :=
    ⟨he.1, he.2.1, le_trans he.2.2.2 (daysInMonth_le e.year e.month)⟩
  rcases mem_setLastEnd hw with hw' | ⟨x, hx, rfl⟩
  · -- window untouched by the last-end override
    cases hL : periodTuples freq s e with
    | nil => rw [hL] at hw'; simp [setFirstStart] at hw'
    | cons p t =>
      rw [hL] at hw'
      obtain ⟨p1, p2⟩ := p
      simp only [setFirstStart, List.mem_cons] at hw'
      rcases hw' with rfl | hw'
      · -- the first window, start overridden to s
        have hpOk : WinOk (p1, p2) := winOk_periodTuples freq s e (p1, p2) (by rw [hL]; simp)
        have hfirst : (p1, p2) ∈ [(p1, p2)] ∨ True := Or.inl (by simp)
        -- p2 is the end of the period containing s
        have hkey : dateKey s ≤ dateKey p2 := by
          rcases hf with rfl | rfl
          · have hhd : (periodTuples "M" s e).head? = some (monthWindow (monthIdx s)) := by
              unfold periodTuples
              rw [if_pos rfl]
              have hne := periodTuples_ne_nil "M" s e hs he hle
              unfold periodTuples at hne
              rw [if_pos rfl] at hne
              have hn : 0 < monthIdx e + 1 - monthIdx s := by
                by_contra hc
                have : monthIdx e + 1 - monthIdx s = 0 := by omega
                rw [this] at hne; simp [idxList] at hne
              rw [List.head?_map, idxList_head? _ _ hn]
              rfl
            rw [hL] at hhd
            simp only [List.head?_cons, Option.some.injEq] at hhd
            have hp2 : p2 = (monthWindow (monthIdx s)).2 := congrArg Prod.snd hhd
            rw [hp2]
            exact key_le_firstWindowEnd_M hs
          · have hhd : (periodTuples "Y" s e).head? = some (yearWindow s.year) := by
              unfold periodTuples
              rw [if_neg (by decide)]
              have hn : 0 < e.year + 1 - s.year := by
                have := year_le_of_key_le hs he hle; omega
              rw [List.head?_map, idxList_head? _ _ hn]
              rfl
            rw [hL] at hhd
            simp only [List.head?_cons, Option.some.injEq] at hhd
            have hp2 : p2 = (yearWindow s.year).2 := congrArg Prod.snd hhd
            rw [hp2]
            exact key_le_firstWindowEnd_Y hs
        exact ⟨hpOk.1, hpOk.2.1, hpOk.2.2.1, hkey⟩
      · exact winOk_periodTuples freq s e w (by rw [hL]; exact List.mem_cons_of_mem _ hw')
  · -- the last window, end overridden to e
    refine ⟨heBound.1, heBound.2.1, heBound.2.2, ?_⟩
    cases hL : periodTuples freq s e with
    | nil => rw [hL] at hx; simp [setFirstStart] at hx
    | cons p t =>
      rw [hL] at hx
      obtain ⟨p1, p2⟩ := p
      cases t with
      | nil =>
        -- single window: its start was overridden to s
        simp only [setFirstStart, List.getLast?_singleton, Option.some.injEq] at hx
        rw [← hx]
        exact hle
      | cons q u =>
        -- at least two windows: the last is the natural period of e
        simp only [setFirstStart] at hx
        have hlast : ((s, p2) :: q :: u).getLast? = (q :: u).getLast? := by
          rw [List.getLast?_cons]
          rcases hq : (q :: u).getLast? with _ | y
          · simp at hq
          · simp [hq]
        rw [hlast] at hx
        have hlastL : (periodTuples freq s e).getLast? = some x := by
          rw [hL, List.getLast?_cons]
          rw [hx]; simp
        rcases hf with rfl | rfl
        · have hmle := monthIdx_le_of_key_le hs he hle
          have hn : 0 < monthIdx e + 1 - monthIdx s := by omega
          have harg : monthIdx s + (monthIdx e + 1 - monthIdx s) - 1 = monthIdx e := by
            omega
          have : (periodTuples "M" s e).getLast? = some (monthWindow (monthIdx e)) := by
            unfold periodTuples
            rw [if_pos rfl, List.getLast?_map, idxList_getLast? _ _ hn, harg]
            rfl
          rw [hlastL] at this
          simp only [Option.some.injEq] at this
          rw [this]
          exact lastWindowStart_key_le_M he
        · have hyle := year_le_of_key_le hs he hle
          have hn : 0 < e.year + 1 - s.year := by omega
          have harg : s.year + (e.year + 1 - s.year) - 1 = e.year := by
            omega
          have : (periodTuples "Y" s e).getLast? = some (yearWindow e.year) := by
            unfold periodTuples
            rw [if_neg (by decide), List.getLast?_map, idxList_getLast? _ _ hn, harg]
            rfl
          rw [hlastL] at this
          simp only [Option.some.injEq] at this
          rw [this]
          exact lastWindowStart_key_le_Y he

theorem pairwise_keyLt_perfWindows (freq : String) (s e : Date)
    (hf : freq = "M" ∨ freq = "Y") (hs : s.Valid) (he : e.Valid)
    (hle : dateKey s ≤ dateKey e) :
    List.Pairwise KeyLt (perfWindows freq s e) := by
  have hchain : List.Chain' WinStep (perfWindows freq s e) :=
    (perfWindows_partition_core freq s e hs he hle).2.2
  have hok := winOk_perfWindows freq s e hf hs he hle
  exact List.chain'_iff_pairwise.mp (chain'_keyLt_of_winStep _ hchain hok)

/-! ### Claim C8: the `freq` validation -/

theorem windowRow_ne_invalidFreq (pv cf : Date → Option ℚ) (w : Date × Date) :
    windowRow pv cf w ≠ Except.error PerfErr.invalidFreq := by
  unfold windowRow valueAt
  cases pv w.1 <;> cases cf w.1 <;> cases pv w.2 <;> cases cf w.2 <;>
    simp [bind, Except.bind]

theorem perfRowsGo_ne_invalidFreq (pv cf : Date → Option ℚ) :
    ∀ ws, perfRowsGo pv cf ws ≠ Except.error PerfErr.invalidFreq
  | [] => by simp [perfRowsGo]
  | w :: ws => by
    have ih := perfRowsGo_ne_invalidFreq pv cf ws
    have hw := windowRow_ne_invalidFreq pv cf w
    unfold perfRowsGo
    cases hwr : windowRow pv cf w with
    | error r =>
      simp only [bind, Except.bind, hwr]
      intro hc
      have hr : r = PerfErr.invalidFreq := Except.error.inj hc
      exact hw (hr ▸ hwr)
    | ok r =>
      simp only [bind, Except.bind, hwr]
      cases hrest : perfRowsGo pv cf ws with
      | error r2 =>
        intro hc
        have hr : r2 = PerfErr.invalidFreq := Except.error.inj hc
        exact ih (hr ▸ hrest)
      | ok rest => simp

/-- Claim C8: `get_portfolio_performance` raises the `ValueError`
("Frequency must be either 'M' ... or 'Y' ...") if and only if `freq`
is neither `'M'` nor `'Y'`; for `'M'` and `'Y'` that error is never
raised. -/
theorem perf_invalid_freq_c8 (pv cf : Date → Option ℚ) (s e : Date) (freq : String) :
    get_portfolio_performance pv cf s e freq = Except.error PerfErr.invalidFreq ↔
      (freq ≠ "M" ∧ freq ≠ "Y") := by
  unfold get_portfolio_performance
  by_cases hf : freq = "M" ∨ freq = "Y"
  · rw [if_pos hf]
    constructor
    · intro hc
      exfalso
      cases hpt : periodTuples freq s e with
      | nil => rw [hpt] at hc; exact PerfErr.noConfusion (Except.error.inj hc)
      | cons x t =>
        rw [hpt] at hc
        simp only [bind, Except.bind] at hc
        cases hrows : perfRowsGo pv cf (perfWindows freq s e) with
        | error r =>
          rw [hrows] at hc
          have hr : r = PerfErr.invalidFreq := Except.error.inj hc
          exact perfRowsGo_ne_invalidFreq pv cf (perfWindows freq s e) (hr ▸ hrows)
        | ok rows => rw [hrows] at hc; exact Except.noConfusion hc
    · intro hc
      exact absurd hf (by tauto)
  · rw [if_neg hf]
    constructor
    · intro _
      exact ⟨fun h => hf (Or.inl h), fun h => hf (Or.inr h)⟩
    · intro _
      rfl

/-- Witness for C8: the granularity `'Q'` is rejected with the
`ValueError`. -/
theorem perf_invalid_freq_c8_witness :
    get_portfolio_performance (fun _ => some 1) (fun _ => some 1)
      ⟨1, 1, 1⟩ ⟨1, 2, 1⟩ "Q" = Except.error PerfErr.invalidFreq :=
  (perf_invalid_freq_c8 (fun _ => some 1) (fun _ => some 1)
    ⟨1, 1, 1⟩ ⟨1, 2, 1⟩ "Q").mpr (by decide)

/-! ### Claim C2: per-window USD and percentage values -/

/-- The row `get_portfolio_performance` writes at window `w`'s end
when both input series are total: `('USD value', '% value')`. -/
def rowOf (P C : Date → ℚ) (w : Date × Date) : Date × ℚ × ℚ :=
  (w.2, ((P w.2 + C w.2) - (P w.1 + C w.1),
    if P w.1 + C w.1 = 0 then 0
    else ((P w.2 + C w.2) - (P w.1 + C w.1)) / (P w.1 + C w.1) * 100))

theorem perfRowsGo_total (P C : Date → ℚ) :
    ∀ ws, perfRowsGo (fun d => some (P d)) (fun d => some (C d)) ws =
      Except.ok (ws.map (rowOf P C))
  | [] => rfl
  | w :: ws => by
    have ih := perfRowsGo_total P C ws
    simp only [perfRowsGo, windowRow, valueAt, bind, Except.bind, ih, rowOf,
      List.map_cons]

theorem rowLookup_eq_none (d : Date) :
    ∀ rows : List (Date × ℚ × ℚ), (∀ r ∈ rows, r.1 ≠ d) → rowLookup rows d = none
  | [], _ => rfl
  | (d0, v) :: t, h => by
    have ih := rowLookup_eq_none d t (fun r hr => h r (List.mem_cons_of_mem _ hr))
    unfold rowLookup
    rw [ih]
    simp only
    rw [if_neg (h (d0, v) (by simp))]

theorem keyLt_ends_ne {w₁ w₂ : Date × Date} (h : KeyLt w₁ w₂) : w₂.2 ≠ w₁.2 := by
  intro hc
  unfold KeyLt at h
  rw [hc] at h
  exact Nat.lt_irrefl _ h

theorem rowLookup_mapped (P C : Date → ℚ) (w : Date × Date) :
    ∀ ws : List (Date × Date), List.Pairwise KeyLt ws → w ∈ ws →
      rowLookup (ws.map (rowOf P C)) w.2 = some (rowOf P C w).2
  | [], _, hmem => absurd hmem (by simp)
  | x :: rest, hpw, hmem => by
    rw [List.pairwise_cons] at hpw
    rcases List.mem_cons.mp hmem with rfl | hmem'
    · have hnone : rowLookup (rest.map (rowOf P C)) w.2 = none := by
        apply rowLookup_eq_none
        intro r hr
        obtain ⟨y, hy, rfl⟩ := List.mem_map.mp hr
        exact fun hc => (keyLt_ends_ne (hpw.1 y hy)) (by simpa [rowOf] using hc)
      simp only [List.map_cons, rowLookup, hnone, rowOf]
      simp
    · have ih := rowLookup_mapped P C w rest hpw.2 hmem'
      simp only [List.map_cons, rowLookup, ih]

/-- Claim C2: for every period window `(s_date, e_date)` of
`get_portfolio_performance`, with `start_value = positions_value[s_date]
+ cash_flow[s_date]` and `end_value = positions_value[e_date] +
cash_flow[e_date]`, the output row at `e_date` has `'USD value' =
end_value - start_value` and `'% value' = 0` when `start_value = 0`
and `(end_value - start_value) / start_value * 100` otherwise; the
zero-start case yields exactly `0`. -/
theorem perf_window_values_c2 (P C : Date → ℚ) (s e : Date) (freq : String)
    (hf : freq = "M" ∨ freq = "Y") (hs : s.Valid) (he : e.Valid)
    (hle : dateKey s ≤ dateKey e) (w : Date × Date)
    (hw : w ∈ perfWindows freq s e) :
    ∃ rows, get_portfolio_performance (fun d => some (P d)) (fun d => some (C d))
        s e freq = Except.ok rows ∧
      rowLookup rows w.2 =
        some ((P w.2 + C w.2) - (P w.1 + C w.1),
          if P w.1 + C w.1 = 0 then 0
          else ((P w.2 + C w.2) - (P w.1 + C w.1)) / (P w.1 + C w.1) * 100) := by
  have hne := periodTuples_ne_nil freq s e hs he hle
  have hpw := pairwise_keyLt_perfWindows freq s e hf hs he hle
  refine ⟨(s, (0, 0)) :: (perfWindows freq s e).map (rowOf P C), ?_, ?_⟩
  · unfold get_portfolio_performance
    rw [if_pos hf]
    cases hpt : periodTuples freq s e with
    | nil => exact absurd hpt hne
    | cons x t =>
      simp only [bind, Except.bind, perfRowsGo_total P C (perfWindows freq s e)]
  · have hmain := rowLookup_mapped P C w (perfWindows freq s e) hpw hw
    unfold rowLookup
    rw [hmain]
    rfl

/-- Witness for C2: the February window of a concrete monthly run,
with positions value `day` and cash flow constantly `1`. -/
theorem perf_window_values_c2_witness :
    ∃ rows, get_portfolio_performance (fun d => some ((d.day : ℚ)))
        (fun d => some ((1 : ℚ))) ⟨1, 1, 15⟩ ⟨1, 3, 10⟩ "M" = Except.ok rows ∧
      rowLookup rows (⟨1, 2, 28⟩ : Date) =
        some ((((28 : ℚ) + 1) - ((1 : ℚ) + 1)),
          if ((1 : ℚ) + 1) = 0 then 0
          else (((28 : ℚ) + 1) - ((1 : ℚ) + 1)) / ((1 : ℚ) + 1) * 100) :=
  perf_window_values_c2 (fun d => ((d.day : ℚ))) (fun _ => ((1 : ℚ)))
    ⟨1, 1, 15⟩ ⟨1, 3, 10⟩ "M" (Or.inl rfl) (by decide) (by decide) (by decide)
    (⟨1, 2, 1⟩, ⟨1, 2, 28⟩) (by decide)

/-! ## Daily builders model (`get_etf_prices`, `get_etf_quantities`,
`get_cash_flow`)

Dates are day indices (the daily calendar `date_range(start, end,
freq='D')` is the integer interval `[start, end]`); a price table is a
column list plus date-keyed rows whose cells are `Option ℚ` (`none`
models a float NaN cell); a transaction is a row of `tx_etf.csv`. -/

/-- One row of `tx_etf.csv`. -/
structure Tx where
  date : Nat
  ticker : String
  qty : Int
  order : String
deriving DecidableEq, Repr

/-- A DataFrame with string columns and date-indexed rows; each row
stores its cells as `(column, value)` pairs, `none` for NaN. -/
structure Table where
  cols : List String
  rows : List (Nat × List (String × Option ℚ))
deriving DecidableEq, Repr

/-- Row at an exact index label. -/
def lookupRow {α : Type} (rows : List (Nat × α)) (d : Nat) : Option α :=
  (rows.find? (fun p => p.1 == d)).map Prod.snd

/-- Cell of a row at a column; `none` if the column is absent or NaN. -/
def rowCell (r : List (String × Option ℚ)) (c : String) : Option ℚ :=
  match r.find? (fun p => p.1 == c) with
  | some p => p.2
  | none => none

/-- Model of `df.drop(excl, axis=1)`: drops the excluded columns; a `KeyError`
(modelled `none`) if some label is not an existing column. -/
def dropCols (t : Table) (excl : List String) : Option Table :=
  if excl.all (fun c => t.cols.contains c) then
    some ⟨t.cols.filter (fun c => !(excl.contains c)),
          t.rows.map (fun r => (r.1, r.2.filter (fun p => !(excl.contains p.1))))⟩
  else none

/-- Model of `date_range(start, end, freq='D')` as day indices. -/
def denseDates (s e : Nat) : List Nat := idxList s (e + 1 - s)

/-- Scan from day `d` down through `k` earlier days for the most
recent non-NaN observation of column `c`. -/
def cellAtAux (t : Table) : Nat → Nat → String → Option ℚ
  | d, 0, c =>
    match lookupRow t.rows d with
    | some r => rowCell r c
    | none => none
  | d, k + 1, c =>
    match lookupRow t.rows d with
    | some r =>
      match rowCell r c with
      | some v => some v
      | none => cellAtAux t (d - 1) k c
    | none => cellAtAux t (d - 1) k c

/-- Value of column `c` on day `d` after `reindex(all_dates).ffill()`:
the most recent non-NaN observation of `c` at a date in `[s, d]`. -/
def cellAt (t : Table) (s d : Nat) (c : String) : Option ℚ :=
  cellAtAux t d (d - s) c

/-- Model of `get_etf_prices(start_date, end_date, exclude_etfs)` applied to
the loaded csv table: drop excluded columns, reindex to the dense
daily calendar, forward-fill. -/
def get_etf_prices (csv : Table) (s e : Nat) (excl : List String) : Option Table :=
  (dropCols csv excl).map (fun t =>
    ⟨t.cols, (denseDates s e).map (fun d => (d, t.cols.map (fun c => (c, cellAt t s d c))))⟩)

/-- The all-zero quantities row (`etf_quantities.loc[date] = 0`). -/
def zerosRow (etfs : List String) : List Int := etfs.map (fun _ => 0)

/-- Model of `etf_quantities.at[date, ticker] += (qty if order == 'BUY' else -qty)`
on a row aligned with the `etfs` columns. -/
def applyTx (etfs : List String) (row : List Int) (t : Tx) : List Int :=
  (etfs.zip row).map (fun p =>
    if p.1 = t.ticker then p.2 + (if t.order = "BUY" then t.qty else -t.qty) else p.2)

/-- Insert-or-overwrite a row at an index label (a `.loc`/`.at` write:
mutates the existing label's row, otherwise enlarges at the end). -/
def setRow {α : Type} : List (Nat × α) → Nat → α → List (Nat × α)
  | [], d, r => [(d, r)]
  | (d0, r0) :: rest, d, r =>
    if d0 = d then (d, r) :: rest else (d0, r0) :: setRow rest d r

/-- One iteration of the `get_etf_quantities` replay loop.  State: the
live row of the current transaction date (`prev_date` and the running
totals) and the already-stored sparse rows. -/
def qStep (etfs : List String) (st : Option (Nat × List Int) × List (Nat × List Int))
    (t : Tx) : Option (Nat × List Int) × List (Nat × List Int) :=
  if t.ticker ∈ etfs then
    match st.1 with
    | none => (some (t.date, applyTx etfs (zerosRow etfs) t), st.2)
    | some (d, row) =>
      if t.date = d then (some (d, applyTx etfs row t), st.2)
      else (some (t.date, applyTx etfs row t), setRow st.2 d row)
  else st

/-- The sparse quantities table after replaying the full ledger. -/
def replayQ (etfs : List String) (txs : List Tx) : List (Nat × List Int) :=
  let st := txs.foldl (qStep etfs) (none, [])
  match st.1 with
  | none => st.2
  | some pr => setRow st.2 pr.1 pr.2

/-- Scan from day `d` down through `k` earlier days for the most
recent stored row. -/
def ffillRowAux (rows : List (Nat × List Int)) : Nat → Nat → Option (List Int)
  | d, 0 => lookupRow rows d
  | d, k + 1 =>
    match lookupRow rows d with
    | some r => some r
    | none => ffillRowAux rows (d - 1) k

/-- Forward-filled whole row on day `d` (rows are total over the
`etfs` columns, so per-column and per-row forward fill coincide). -/
def ffillRow (rows : List (Nat × List Int)) (s d : Nat) : Option (List Int) :=
  ffillRowAux rows d (d - s)

/-- Model of `get_etf_quantities(start_date, end_date, etfs)` applied to the
loaded transaction ledger: replay, reindex to the daily calendar,
forward-fill, `astype(int)`.  The integer cast fails (`none`) when any
dense cell is still NaN (no row at or before that day in range). -/
def get_etf_quantities (s e : Nat) (etfs : List String) (txs : List Tx) :
    Option (List (Nat × List Int)) :=
  if ((denseDates s e).map (fun d => (d, ffillRow (replayQ etfs txs) s d))).all
      (fun p => p.2.isSome) then
    some (((denseDates s e).map (fun d => (d, ffillRow (replayQ etfs txs) s d))).map
      (fun p => (p.1, p.2.getD [])))
  else none

/-- Model of `etf_prices.at[date, ticker]`: `none` (a `KeyError`) when the date
is not an index label or the ticker not a column; otherwise the cell,
which may itself be NaN. -/
def pxAt (px : Table) (d : Nat) (c : String) : Option (Option ℚ) :=
  match lookupRow px.rows d with
  | some r => if px.cols.contains c then some (rowCell r c) else none
  | none => none

/-- Positional forward fill of the cash column (`ffill` after the
replay loop; rows are in frame order). -/
def positionalFfill : List (Nat × Option ℚ) → Option ℚ → List (Nat × Option ℚ)
  | [], _ => []
  | (d, v) :: rest, last =>
    match v with
    | some x => (d, some x) :: positionalFfill rest (some x)
    | none => (d, last) :: positionalFfill rest last

/-- One iteration of the `get_cash_flow` replay loop.  State: the
running cash (`none` once a NaN price has polluted it) and the cash
frame rows.  A missing exact-date price lookup raises, carrying the
failing date and ticker. -/
def cashStep (px : Table) (excl : List String)
    (st : Option ℚ × List (Nat × Option ℚ)) (t : Tx) :
    Except (Nat × String) (Option ℚ × List (Nat × Option ℚ)) :=
  if t.ticker ∈ excl then .ok st
  else
    match pxAt px t.date t.ticker with
    | none => .error (t.date, t.ticker)
    | some cell =>
      let cash' : Option ℚ :=
        match st.1, cell with
        | some cv, some p =>
          some (cv + p * (if t.order = "BUY" then -(t.qty : ℚ) else (t.qty : ℚ)))
        | _, _ => none
      .ok (cash', setRow st.2 t.date cash')

/-- Model of `get_cash_flow(etf_prices, start_date, end_date, invested_cash,
exclude_etfs)` applied to the loaded transaction ledger. -/
def get_cash_flow (px : Table) (s e : Nat) (invested : ℚ) (excl : List String)
    (txs : List Tx) : Except (Nat × String) (List (Nat × Option ℚ)) :=
  (txs.foldlM (cashStep px excl)
      (some invested, (denseDates s e).map (fun d => (d, none)))).map
    (fun st => positionalFfill st.2 none)

/-! ### Claim C6: dense tables have one row per calendar day -/

theorem idxList_length : ∀ (n a : Nat), (idxList a n).length = n
  | 0, _ => rfl
  | n + 1, a => by simp [idxList, idxList_length n (a + 1)]

theorem mem_idxList : ∀ (n a k : Nat), k ∈ idxList a n ↔ a ≤ k ∧ k < a + n
  | 0, a, k => by simp [idxList]
  | n + 1, a, k => by
    simp only [idxList, List.mem_cons, mem_idxList n (a + 1) k]
    omega

/-- Claim C6: for every `start_date ≤ end_date`, each dense table
returned by the price builder and each returned by the quantity
builder has exactly one row per calendar day of `[start_date,
end_date]` inclusive. -/
theorem dense_row_count_c6 (csv : Table) (s e : Nat) (excl etfs : List String)
    (txs : List Tx) (hle : s ≤ e) :
    (∀ t, get_etf_prices csv s e excl = some t → t.rows.length = e - s + 1) ∧
    (∀ q, get_etf_quantities s e etfs txs = some q → q.length = e - s + 1) := by
  constructor
  · intro t ht
    unfold get_etf_prices at ht
    cases hd : dropCols csv excl with
    | none => rw [hd] at ht; exact Option.noConfusion ht
    | some t0 =>
      rw [hd] at ht
      have h2 := Option.some.inj ht
      rw [← h2]
      simp only [List.length_map]
      unfold denseDates
      rw [idxList_length]
      omega
  · intro q hq
    unfold get_etf_quantities at hq
    split at hq
    · have h2 := Option.some.inj hq
      rw [← h2]
      simp only [List.length_map]
      unfold denseDates
      rw [idxList_length]
      omega
    · exact Option.noConfusion hq

/-- Witness for C6 at a concrete range and inputs. -/
theorem dense_row_count_c6_witness :
    (∀ t, get_etf_prices ⟨["A"], [(2, [("A", some 5)])]⟩ 2 4 [] = some t →
        t.rows.length = 4 - 2 + 1) ∧
    (∀ q, get_etf_quantities 2 4 ["A"] [⟨2, "A", 1, "BUY"⟩] = some q →
        q.length = 4 - 2 + 1) :=
  dense_row_count_c6 ⟨["A"], [(2, [("A", some 5)])]⟩ 2 4 [] ["A"]
    [⟨2, "A", 1, "BUY"⟩] (by decide)

/-! ### Claim C5: quantity replay of BUY 10 / SELL 3 -/

/-- A ledger whose only transactions are BUY 10 of "X" on day 3 and
SELL 3 of "X" on day 5 (here day 7). -/
def c5Ledger : List Tx := [⟨3, "X", 10, "BUY"⟩, ⟨7, "X", 3, "SELL"⟩]

/-- Counterexample to C5: with the range starting on day 1 — before
the first transaction on day 3 — the claim asserts holdings 0 on days
1 and 2, but the builder fails: the leading dense rows have no value
to forward-fill from and `astype(int)` raises on NaN, so no series is
returned at all. -/
theorem quantity_zero_before_first_tx_cex_c5 :
    get_etf_quantities 1 8 ["X"] c5Ledger = none := by decide

/-- Amended C5: with `start_date` at the first transaction day, the
dense holdings are 10 from day 3 (BUY 10) through day 6, and 7 from
day 7 (SELL 3) onward; when the range starts earlier the builder
fails instead of reporting 0. -/
theorem quantity_replay_c5 :
    get_etf_quantities 3 8 ["X"] c5Ledger =
      some [(3, [10]), (4, [10]), (5, [10]), (6, [10]), (7, [7]), (8, [7])] := by
  decide

/-! ### Claim C7: forward-fill idempotence of the price builder -/

theorem cellAt_step (t : Table) (s d : Nat) (c : String) (h : s < d) :
    cellAt t s d c =
      match lookupRow t.rows d with
      | some r =>
        match rowCell r c with
        | some v => some v
        | none => cellAt t s (d - 1) c
      | none => cellAt t s (d - 1) c := by
  unfold cellAt
  have hk : d - s = (d - 1 - s) + 1 := by omega
  rw [hk]
  rfl

theorem cellAt_base (t : Table) (s d : Nat) (c : String) (h : ¬ s < d) :
    cellAt t s d c =
      match lookupRow t.rows d with
      | some r => rowCell r c
      | none => none := by
  unfold cellAt
  have hk : d - s = 0 := by omega
  rw [hk]
  rfl

theorem cellAt_none_prev (t : Table) (s d : Nat) (c : String)
    (hlt : s < d) (h : cellAt t s d c = none) : cellAt t s (d - 1) c = none := by
  rw [cellAt_step t s d c hlt] at h
  split at h
  · split at h
    · exact absurd h (by simp)
    · exact h
  · exact h

theorem lookupRow_idxList_map {α : Type} (f : Nat → α) :
    ∀ (n a d : Nat), a ≤ d → d < a + n →
      lookupRow ((idxList a n).map (fun x => (x, f x))) d = some (f d)
  | 0, a, d, h1, h2 => by omega
  | n + 1, a, d, h1, h2 => by
    simp only [idxList, List.map_cons]
    by_cases had : a = d
    · subst had
      unfold lookupRow
      rw [List.find?_cons_of_pos _ (by simp)]
      rfl
    · have ih := lookupRow_idxList_map f n (a + 1) d (by omega) (by omega)
      unfold lookupRow at ih ⊢
      rw [List.find?_cons_of_neg _ (by simp [had])]
      exact ih

theorem rowCell_mapCols (g : String → Option ℚ) :
    ∀ (cols : List String) (c : String), c ∈ cols →
      rowCell (cols.map (fun x => (x, g x))) c = g c
  | [], c, hc => absurd hc (by simp)
  | c0 :: rest, c, hc => by
    unfold rowCell
    simp only [List.map_cons]
    by_cases h0 : c0 = c
    · subst h0
      rw [List.find?_cons_of_pos _ (by simp)]
    · rcases List.mem_cons.mp hc with rfl | hc'
      · exact absurd rfl h0
      · have ih := rowCell_mapCols g rest c hc'
        unfold rowCell at ih
        rw [List.find?_cons_of_neg _ (by simp [h0])]
        exact ih

theorem dropCols_nil (t : Table) : dropCols t [] = some t := by
  unfold dropCols
  simp only [List.all_nil, if_true]
  have h1 : t.cols.filter (fun c => !(([] : List String).contains c)) = t.cols := by
    simp
  have h2 : t.rows.map
      (fun r => (r.1, r.2.filter (fun p => !(([] : List String).contains p.1)))) = t.rows := by
    simp
  rw [h1, h2]

/-- The dense table built from `t0` over `[s, e]` agrees with `t0`'s
forward fill at every in-range day and column: filling the already
filled table changes nothing. -/
theorem cellAt_out (t0 : Table) (s e : Nat) (T : Table)
    (hTr : T.rows = (denseDates s e).map
      (fun x => (x, t0.cols.map (fun c' => (c', cellAt t0 s x c'))))) :
    ∀ d, s ≤ d → d ≤ e → ∀ c, c ∈ t0.cols → cellAt T s d c = cellAt t0 s d c := by
  intro d
  induction d using Nat.strong_induction_on with
  | _ d ih =>
    intro h1 h2 c hc
    have hrow : lookupRow T.rows d
        = some (t0.cols.map (fun c' => (c', cellAt t0 s d c'))) := by
      rw [hTr]
      unfold denseDates
      exact lookupRow_idxList_map _ _ _ _ h1 (by omega)
    by_cases hsd : s < d
    · rw [cellAt_step T s d c hsd, hrow]
      show (match rowCell (t0.cols.map (fun c' => (c', cellAt t0 s d c'))) c with
        | some v => some v
        | none => cellAt T s (d - 1) c) = cellAt t0 s d c
      rw [rowCell_mapCols _ _ _ hc]
      cases hv : cellAt t0 s d c with
      | some v => rfl
      | none =>
        show cellAt T s (d - 1) c = none
        rw [ih (d - 1) (by omega) (by omega) (by omega) c hc]
        exact cellAt_none_prev t0 s d c hsd hv
    · rw [cellAt_base T s d c hsd, hrow]
      show rowCell (t0.cols.map (fun c' => (c', cellAt t0 s d c'))) c = cellAt t0 s d c
      rw [rowCell_mapCols _ _ _ hc]

/-- Counterexample to C7: a table with columns `A` and `B`, one
observation each on day 0, range `[0, 1]`, exclusions `['A']`.  The
first run succeeds, but feeding its dense output back with the same
exclusions fails: `drop(['A'], axis=1)` raises because column `A` is
already gone.  So builder∘builder is not the identity on the dense
output when the exclusion list is non-empty. -/
theorem price_builder_idem_cex_c7 :
    ((get_etf_prices ⟨["A", "B"], [(0, [("A", some 1), ("B", some 2)])]⟩ 0 1
        ["A"]).bind (fun t => get_etf_prices t 0 1 ["A"]) = none) ∧
    (get_etf_prices ⟨["A", "B"], [(0, [("A", some 1), ("B", some 2)])]⟩ 0 1
        ["A"]).isSome = true := by
  decide

/-- Amended C7: with an empty exclusion list the price builder is
idempotent — re-running it on its own dense output (same date range)
returns that output unchanged.  (With a non-empty exclusion list the
second run instead fails while dropping the already-removed columns,
as the counterexample shows.) -/
theorem price_builder_idem_c7 (csv : Table) (s e : Nat) (t : Table)
    (h : get_etf_prices csv s e [] = some t) :
    get_etf_prices t s e [] = some t := by
  unfold get_etf_prices at h
  rw [dropCols_nil] at h
  have ht : t = ⟨csv.cols, (denseDates s e).map
      (fun d => (d, csv.cols.map (fun c => (c, cellAt csv s d c))))⟩ :=
    (Option.some.inj h).symm
  subst ht
  unfold get_etf_prices
  rw [dropCols_nil]
  refine congrArg some ?_
  have hrows : (denseDates s e).map
      (fun d => (d, csv.cols.map (fun c => (c,
        cellAt ⟨csv.cols, (denseDates s e).map
          (fun x => (x, csv.cols.map (fun c' => (c', cellAt csv s x c'))))⟩ s d c)))) =
      (denseDates s e).map
      (fun d => (d, csv.cols.map (fun c => (c, cellAt csv s d c)))) := by
    apply List.map_congr_left
    intro d hd
    unfold denseDates at hd
    have hb := (mem_idxList _ _ _).mp hd
    have hcongr : ∀ c ∈ csv.cols,
        (fun c => (c, cellAt ⟨csv.cols, (denseDates s e).map
            (fun x => (x, csv.cols.map (fun c' => (c', cellAt csv s x c'))))⟩ s d c)) c =
        (fun c => (c, cellAt csv s d c)) c := by
      intro c hcc
      simp only
      rw [cellAt_out csv s e _ rfl d (by omega) (by omega) c hcc]
    rw [List.map_congr_left hcongr]
  exact congrArg (Table.mk csv.cols) hrows

/-- Witness for C7's amended theorem at a concrete table and range. -/
theorem price_builder_idem_c7_witness :
    get_etf_prices ⟨["B"], [(0, [("B", some 2)]), (1, [("B", none)])]⟩ 0 1 [] =
      some ⟨["B"], [(0, [("B", some 2)]), (1, [("B", some 2)])]⟩ :=
  price_builder_idem_c7 ⟨["B"], [(0, [("B", some 2)])]⟩ 0 1
    ⟨["B"], [(0, [("B", some 2)]), (1, [("B", some 2)])]⟩ (by decide)

/-! ### Claim C4: exact-date price lookup during cash-flow replay -/

theorem foldlM_cashStep_error (px : Table) (excl : List String) :
    ∀ (txs : List Tx) (st : Option ℚ × List (Nat × Option ℚ)),
      (∃ u ∈ txs, u.ticker ∉ excl ∧ pxAt px u.date u.ticker = none) →
      ∃ d tk, txs.foldlM (cashStep px excl) st = Except.error (d, tk) ∧
        pxAt px d tk = none ∧
        ∃ u ∈ txs, u.ticker ∉ excl ∧ u.date = d ∧ u.ticker = tk
  | [], st, hex => by
    obtain ⟨u, hu, _⟩ := hex
    exact absurd hu (by simp)
  | t :: ts, st, hex => by
    rw [List.foldlM_cons]
    by_cases hexc : t.ticker ∈ excl
    · have hex' : ∃ u ∈ ts, u.ticker ∉ excl ∧ pxAt px u.date u.ticker = none := by
        obtain ⟨u, hu, h1, h2⟩ := hex
        rcases List.mem_cons.mp hu with rfl | hu'
        · exact absurd hexc h1
        · exact ⟨u, hu', h1, h2⟩
      obtain ⟨d, tk, h3, h4, u, hu, h5⟩ := foldlM_cashStep_error px excl ts st hex'
      refine ⟨d, tk, ?_, h4, u, List.mem_cons_of_mem _ hu, h5⟩
      unfold cashStep
      rw [if_pos hexc]
      simp only [bind, Except.bind]
      exact h3
    · cases hpx : pxAt px t.date t.ticker with
      | none =>
        refine ⟨t.date, t.ticker, ?_, hpx, t, by simp, hexc, rfl, rfl⟩
        unfold cashStep
        rw [if_neg hexc, hpx]
        rfl
      | some cell =>
        have hex' : ∃ u ∈ ts, u.ticker ∉ excl ∧ pxAt px u.date u.ticker = none := by
          obtain ⟨u, hu, h1, h2⟩ := hex
          rcases List.mem_cons.mp hu with rfl | hu'
          · rw [hpx] at h2; exact absurd h2 (by simp)
          · exact ⟨u, hu', h1, h2⟩
        obtain ⟨d, tk, h3, h4, u, hu, h5⟩ := foldlM_cashStep_error px excl ts _ hex'
        refine ⟨d, tk, ?_, h4, u, List.mem_cons_of_mem _ hu, h5⟩
        unfold cashStep
        rw [if_neg hexc, hpx]
        simp only [bind, Except.bind]
        exact h3

/-- Claim C4: during cash-flow replay, prices are looked up at the
transaction's exact date; whenever a non-excluded transaction has no
price entry for its exact date and instrument, `get_cash_flow` fails
with an error carrying a missing date and instrument of such a
transaction — it never skips the transaction and returns no cash
series at all. -/
theorem cash_flow_missing_price_c4 (px : Table) (s e : Nat) (invested : ℚ)
    (excl : List String) (txs : List Tx) (t : Tx) (hmem : t ∈ txs)
    (hexcl : t.ticker ∉ excl) (hmiss : pxAt px t.date t.ticker = none) :
    ∃ d tk, get_cash_flow px s e invested excl txs = Except.error (d, tk) ∧
      pxAt px d tk = none ∧
      ∃ u ∈ txs, u.ticker ∉ excl ∧ u.date = d ∧ u.ticker = tk := by
  obtain ⟨d, tk, h1, h2, h3⟩ := foldlM_cashStep_error px excl txs
    (some invested, (denseDates s e).map (fun x => (x, none))) ⟨t, hmem, hexcl, hmiss⟩
  refine ⟨d, tk, ?_, h2, h3⟩
  unfold get_cash_flow
  rw [h1]
  rfl

/-- Witness for C4: a BUY of `X` on day 1 with an empty price table
makes the replay fail. -/
theorem cash_flow_missing_price_c4_witness :
    ∃ d tk, get_cash_flow ⟨["X"], []⟩ 0 2 100 [] [⟨1, "X", 5, "BUY"⟩]
        = Except.error (d, tk) ∧
      pxAt ⟨["X"], []⟩ d tk = none ∧
      ∃ u ∈ [(⟨1, "X", 5, "BUY"⟩ : Tx)], u.ticker ∉ ([] : List String) ∧
        u.date = d ∧ u.ticker = tk :=
  cash_flow_missing_price_c4 ⟨["X"], []⟩ 0 2 100 [] [⟨1, "X", 5, "BUY"⟩]
    ⟨1, "X", 5, "BUY"⟩ (by simp) (by simp) (by decide)

/-! ### Claim C10: transaction sides other than BUY and SELL -/

theorem applyTx_not_buy (etfs : List String) (row : List Int) (t u : Tx)
    (htt : t.ticker = u.ticker) (hqq : t.qty = u.qty)
    (h1 : t.order ≠ "BUY") (h2 : u.order ≠ "BUY") :
    applyTx etfs row t = applyTx etfs row u := by
  unfold applyTx
  simp [htt, hqq, h1, h2]

theorem qStep_not_buy_pair (etfs : List String)
    (st : Option (Nat × List Int) × List (Nat × List Int)) (t u : Tx)
    (hdd : t.date = u.date) (htt : t.ticker = u.ticker) (hqq : t.qty = u.qty)
    (h1 : t.order ≠ "BUY") (h2 : u.order ≠ "BUY") :
    qStep etfs st t = qStep etfs st u := by
  have happ : ∀ row, applyTx etfs row t = applyTx etfs row u :=
    fun row => applyTx_not_buy etfs row t u htt hqq h1 h2
  unfold qStep
  simp only [hdd, htt, happ]

theorem cashStep_not_buy_pair (px : Table) (excl : List String)
    (st : Option ℚ × List (Nat × Option ℚ)) (t u : Tx)
    (hdd : t.date = u.date) (htt : t.ticker = u.ticker) (hqq : t.qty = u.qty)
    (h1 : t.order ≠ "BUY") (h2 : u.order ≠ "BUY") :
    cashStep px excl st t = cashStep px excl st u := by
  unfold cashStep
  simp only [hdd, htt, hqq, h1, h2, if_false]

theorem foldl_qStep_replace (etfs : List String) (t u : Tx)
    (hstep : ∀ st, qStep etfs st t = qStep etfs st u) (pre post : List Tx)
    (init : Option (Nat × List Int) × List (Nat × List Int)) :
    (pre ++ t :: post).foldl (qStep etfs) init =
      (pre ++ u :: post).foldl (qStep etfs) init := by
  rw [List.foldl_append, List.foldl_append, List.foldl_cons, List.foldl_cons, hstep]

theorem foldlM_cashStep_replace (px : Table) (excl : List String) (t u : Tx)
    (hstep : ∀ st, cashStep px excl st t = cashStep px excl st u)
    (pre post : List Tx) (init : Option ℚ × List (Nat × Option ℚ)) :
    (pre ++ t :: post).foldlM (cashStep px excl) init =
      (pre ++ u :: post).foldlM (cashStep px excl) init := by
  have hfun : (fun b => (t :: post).foldlM (cashStep px excl) b) =
      (fun b => (u :: post).foldlM (cashStep px excl) b) := by
    funext b
    rw [List.foldlM_cons, List.foldlM_cons, hstep b]
  rw [List.foldlM_append, List.foldlM_append, hfun]

/-- Claim C10 (implicit behaviour): a transaction whose side is
neither `'BUY'` nor `'SELL'` is replayed by both `get_etf_quantities`
and `get_cash_flow` exactly as a `'SELL'` — the quantity is subtracted
from holdings and the notional added to cash — with no validation and
no error: the outputs are identical to those for the same ledger with
that side replaced by `'SELL'`. -/
theorem side_not_buy_treated_as_sell_c10 (s e : Nat) (etfs excl : List String)
    (px : Table) (invested : ℚ) (pre post : List Tx) (t : Tx)
    (hs : t.order ≠ "BUY") :
    get_etf_quantities s e etfs (pre ++ t :: post) =
      get_etf_quantities s e etfs (pre ++ { t with order := "SELL" } :: post) ∧
    get_cash_flow px s e invested excl (pre ++ t :: post) =
      get_cash_flow px s e invested excl (pre ++ { t with order := "SELL" } :: post) := by
  have hord : ({ t with order := "SELL" } : Tx).order ≠ "BUY" := by
    show ("SELL" : String) ≠ "BUY"
    decide
  have hq : ∀ st, qStep etfs st t = qStep etfs st { t with order := "SELL" } :=
    fun st => qStep_not_buy_pair etfs st t _ rfl rfl rfl hs hord
  have hc : ∀ st, cashStep px excl st t = cashStep px excl st { t with order := "SELL" } :=
    fun st => cashStep_not_buy_pair px excl st t _ rfl rfl rfl hs hord
  constructor
  · unfold get_etf_quantities replayQ
    rw [foldl_qStep_replace etfs t _ hq pre post]
  · unfold get_cash_flow
    rw [foldlM_cashStep_replace px excl t _ hc pre post]

/-- Witness for C10: a `'HOLD'` side behaves exactly as `'SELL'` in a
concrete ledger. -/
theorem side_not_buy_treated_as_sell_c10_witness :
    get_etf_quantities 1 3 ["X"] ([⟨1, "X", 4, "BUY"⟩] ++ ⟨2, "X", 1, "HOLD"⟩ :: []) =
      get_etf_quantities 1 3 ["X"]
        ([⟨1, "X", 4, "BUY"⟩] ++ ⟨2, "X", 1, "SELL"⟩ :: []) ∧
    get_cash_flow ⟨["X"], [(1, [("X", some 10)]), (2, [("X", some 10)])]⟩ 1 3 100 []
        ([⟨1, "X", 4, "BUY"⟩] ++ ⟨2, "X", 1, "HOLD"⟩ :: []) =
      get_cash_flow ⟨["X"], [(1, [("X", some 10)]), (2, [("X", some 10)])]⟩ 1 3 100 []
        ([⟨1, "X", 4, "BUY"⟩] ++ ⟨2, "X", 1, "SELL"⟩ :: []) :=
  side_not_buy_treated_as_sell_c10 1 3 ["X"] [] ⟨["X"], [(1, [("X", some 10)]), (2, [("X", some 10)])]⟩
    100 [⟨1, "X", 4, "BUY"⟩] [] ⟨2, "X", 1, "HOLD"⟩ (by decide)

/-! ## Risk statistic model (`get_standard_deviation_of_daily_returns`,
`calculate_standard_deviation`)

Portfolio series are dense lists of daily values.  The `shift(1)`
difference makes the first daily return NaN (`none`); pandas `mean`
and `sum` skip NaN entries while `len(data)` counts every row. -/

/-- Model of `(v[t] - v[t-1]) / v[t-1] * 100` for `t ≥ 1` (`none` on a zero
base, where float division would produce a non-finite value). -/
def dailyReturnsGo (prev : ℚ) : List ℚ → List (Option ℚ)
  | [] => []
  | y :: ys =>
    (if prev = 0 then none else some ((y - prev) / prev * 100)) :: dailyReturnsGo y ys

/-- The daily-returns column: NaN at `t = 0` (there is no prior day). -/
def dailyReturns : List ℚ → List (Option ℚ)
  | [] => []
  | x :: xs => none :: dailyReturnsGo x xs

/-- The non-NaN entries, as pandas reductions see them. -/
def validVals (data : List (Option ℚ)) : List ℚ := data.filterMap id

/-- Model of `data.mean()`: NaN-skipping mean (NaN when no entry is valid). -/
def nanMean (data : List (Option ℚ)) : Option ℚ :=
  if (validVals data).length = 0 then none
  else some ((validVals data).sum / ((validVals data).length : ℚ))

/-- Model of `((mean - data) ** 2).sum()`: NaN entries drop out of the sum. -/
def devSqSum (data : List (Option ℚ)) : ℚ :=
  match nanMean data with
  | none => 0
  | some m => ((validVals data).map (fun x => (m - x) * (m - x))).sum

/-- The radicand `sum_deviation_from_mean / (n - 1)` with
`n = len(data)`; `none` for the 0/0 NaN when `n = 1`. -/
def calc_radicand (data : List (Option ℚ)) : Option ℚ :=
  if data.length = 1 then none
  else some (devSqSum data / ((data.length : ℚ) - 1))

/-- Model of `calculate_standard_deviation(data)`: `math.sqrt` of the
radicand.  The radicand is computable; only the square root lives in
`ℝ`. -/
noncomputable def calculate_standard_deviation (data : List (Option ℚ)) : Option ℝ :=
  (calc_radicand data).map (fun q => Real.sqrt (q : ℝ))

/-- Model of `get_standard_deviation_of_daily_returns(positions_value, cash_flow)`. -/
noncomputable def get_standard_deviation_of_daily_returns (pv cf : List ℚ) : Option ℝ :=
  calculate_standard_deviation (dailyReturns (List.zipWith (fun a b => a + b) pv cf))

/-- The valid (non-excluded) daily returns of the summed series. -/
def validReturns (pv cf : List ℚ) : List ℚ :=
  validVals (dailyReturns (List.zipWith (fun a b => a + b) pv cf))

/-- Mean written as in the spec. -/
def specMean (rs : List ℚ) : ℚ := rs.sum / (rs.length : ℚ)

/-- Sum of squared deviations written as in the spec. -/
def specDevSqSum (rs : List ℚ) : ℚ :=
  (rs.map (fun r => (r - specMean rs) * (r - specMean rs))).sum

/-- Modelled from the spec: the Bessel-corrected sample standard
deviation over the valid daily returns, divisor `n - 1` with `n` the
count of valid returns (undefined for `n ≤ 1`). -/
noncomputable def specBesselStd (pv cf : List ℚ) : Option ℝ :=
  if (validReturns pv cf).length ≤ 1 then none
  else some (Real.sqrt ((specDevSqSum (validReturns pv cf) /
    (((validReturns pv cf).length : ℚ) - 1) : ℚ) : ℝ))

/-- The population standard deviation of the valid daily returns:
divisor `n`, the count of valid returns. -/
noncomputable def specPopulationStd (pv cf : List ℚ) : Option ℝ :=
  if (validReturns pv cf).length = 0 then none
  else some (Real.sqrt ((specDevSqSum (validReturns pv cf) /
    ((validReturns pv cf).length : ℚ) : ℚ) : ℝ))

/-! ### Claim C3: which divisor the code uses -/

/-- Counterexample to C3: for portfolio values `[100, 110, 110]` the
valid daily returns are `[10, 0]` (n = 2) with squared deviations
summing to 50; Bessel's correction over the valid sample divides by
`n - 1 = 1` giving `sqrt 50`, but the code divides by `len(data) - 1
= 2` — `len(data)` counts the excluded t = 0 row — giving `sqrt 25`. -/
theorem std_not_bessel_cex_c3 :
    get_standard_deviation_of_daily_returns [100, 110, 110] [0, 0, 0] ≠
      specBesselStd [100, 110, 110] [0, 0, 0] := by
  have hdr : dailyReturns (List.zipWith (fun a b => a + b)
      ([100, 110, 110] : List ℚ) ([0, 0, 0] : List ℚ)) = [none, some 10, some 0] := by
    show [none,
        if (100 : ℚ) + 0 = 0 then none
        else some ((110 + 0 - (100 + 0)) / (100 + 0) * 100),
        if (110 : ℚ) + 0 = 0 then none
        else some ((110 + 0 - (110 + 0)) / (110 + 0) * 100)]
      = [none, some 10, some 0]
    norm_num
  have hvl : validVals [none, some (10 : ℚ), some 0] = [10, 0] := rfl
  have hrad : calc_radicand [none, some (10 : ℚ), some 0] = some 25 := by
    unfold calc_radicand devSqSum nanMean
    simp only [hvl]
    norm_num
  have h1 : get_standard_deviation_of_daily_returns [100, 110, 110] [0, 0, 0]
      = some (Real.sqrt ((25 : ℚ) : ℝ)) := by
    unfold get_standard_deviation_of_daily_returns calculate_standard_deviation
    rw [hdr, hrad]
    rfl
  have hvr : validReturns ([100, 110, 110] : List ℚ) [0, 0, 0] = [10, 0] := by
    unfold validReturns
    rw [hdr]
    exact hvl
  have hsds : specDevSqSum [(10 : ℚ), 0] = 50 := by
    unfold specDevSqSum specMean
    norm_num
  have h2 : specBesselStd [100, 110, 110] [0, 0, 0]
      = some (Real.sqrt ((50 : ℚ) : ℝ)) := by
    unfold specBesselStd
    rw [hvr, hsds]
    norm_num
  intro h
  rw [h1, h2] at h
  have h4 := Option.some.inj h
  have h6 : Real.sqrt ((25 : ℚ) : ℝ) < Real.sqrt ((50 : ℚ) : ℝ) :=
    Real.sqrt_lt_sqrt (by norm_num) (by norm_num)
  rw [h4] at h6
  exact lt_irrefl _ h6

theorem dailyReturnsGo_all_some :
    ∀ (xs : List ℚ) (prev : ℚ), prev ≠ 0 → (∀ x ∈ xs.dropLast, x ≠ 0) →
      ∃ rs : List ℚ, dailyReturnsGo prev xs = rs.map some ∧ rs.length = xs.length
  | [], prev, _, _ => ⟨[], rfl, rfl⟩
  | y :: ys, prev, hp, hall => by
    cases ys with
    | nil =>
      refine ⟨[(y - prev) / prev * 100], ?_, rfl⟩
      simp [dailyReturnsGo, hp]
    | cons z zs =>
      have hy : y ≠ 0 := hall y (by simp [List.dropLast])
      have hall' : ∀ x ∈ (z :: zs).dropLast, x ≠ 0 := fun x hx =>
        hall x (by simp [List.dropLast]; right; exact hx)
      obtain ⟨rs, hrs, hlen⟩ := dailyReturnsGo_all_some (z :: zs) y hy hall'
      refine ⟨(y - prev) / prev * 100 :: rs, ?_, by simp [hlen]⟩
      show (if prev = 0 then none else some ((y - prev) / prev * 100)) ::
          dailyReturnsGo y (z :: zs) = ((y - prev) / prev * 100 :: rs).map some
      rw [if_neg hp, hrs]
      rfl

theorem validVals_none_map_some (rs : List ℚ) :
    validVals (none :: rs.map some) = rs := by
  unfold validVals
  simp

theorem calc_radicand_all_some (rs : List ℚ) (hrs : 1 ≤ rs.length) :
    calc_radicand (none :: rs.map some) =
      some (specDevSqSum rs / (rs.length : ℚ)) := by
  have hvv := validVals_none_map_some rs
  have hdatalen : (none :: rs.map some).length = rs.length + 1 := by simp
  have hsum : (rs.map (fun x => (rs.sum / (rs.length : ℚ) - x) *
      (rs.sum / (rs.length : ℚ) - x))).sum = specDevSqSum rs := by
    unfold specDevSqSum specMean
    apply congrArg List.sum
    apply List.map_congr_left
    intro r _
    ring
  have hcast : ((rs.length + 1 : ℕ) : ℚ) - 1 = (rs.length : ℚ) := by
    push_cast
    ring
  unfold calc_radicand devSqSum nanMean
  simp only [hvv, hdatalen]
  rw [if_neg (by omega), if_neg (by omega)]
  congr 1
  show (rs.map (fun x => (rs.sum / (rs.length : ℚ) - x) *
      (rs.sum / (rs.length : ℚ) - x))).sum / (((rs.length + 1 : ℕ) : ℚ) - 1)
      = specDevSqSum rs / (rs.length : ℚ)
  rw [hsum, hcast]

/-- Amended C3: the code's divisor is `len(data) - 1`, which equals
the count `n` of valid daily returns (the NaN t = 0 row is counted by
`len` and skipped by the sums) — so it computes the population
standard deviation of the valid returns, not the Bessel-corrected
sample standard deviation with divisor `n - 1`. -/
theorem std_divisor_is_valid_count_c3 (pv cf : List ℚ)
    (hlen : 2 ≤ (List.zipWith (fun a b => a + b) pv cf).length)
    (hnz : ∀ x ∈ (List.zipWith (fun a b => a + b) pv cf).dropLast, x ≠ 0) :
    get_standard_deviation_of_daily_returns pv cf = specPopulationStd pv cf := by
  cases hvv : List.zipWith (fun a b => a + b) pv cf with
  | nil => rw [hvv] at hlen; exact absurd hlen (by simp)
  | cons x xs =>
    rw [hvv] at hlen hnz
    have hx : x ≠ 0 := by
      apply hnz
      cases xs with
      | nil => simp at hlen
      | cons z zs => simp [List.dropLast]
    have hxs : ∀ y ∈ xs.dropLast, y ≠ 0 := by
      intro y hy
      apply hnz
      cases xs with
      | nil => simp at hy
      | cons z zs => simp [List.dropLast] at hy ⊢; right; exact hy
    obtain ⟨rs, hrs, hrslen⟩ := dailyReturnsGo_all_some xs x hx hxs
    have hxs1 : 1 ≤ xs.length := by
      simp at hlen
      omega
    have hdr : dailyReturns (x :: xs) = none :: rs.map some := by
      show none :: dailyReturnsGo x xs = none :: rs.map some
      rw [hrs]
    have hcode : get_standard_deviation_of_daily_returns pv cf
        = some (Real.sqrt ((specDevSqSum rs / (rs.length : ℚ) : ℚ) : ℝ)) := by
      unfold get_standard_deviation_of_daily_returns calculate_standard_deviation
      rw [hvv, hdr, calc_radicand_all_some rs (by omega)]
      rfl
    have hspec : specPopulationStd pv cf
        = some (Real.sqrt ((specDevSqSum rs / (rs.length : ℚ) : ℚ) : ℝ)) := by
      unfold specPopulationStd validReturns
      rw [hvv, hdr, validVals_none_map_some rs]
      rw [if_neg (by omega)]
    rw [hcode, hspec]

/-- Witness for amended C3 at portfolio values `[100, 110, 121]`. -/
theorem std_divisor_is_valid_count_c3_witness :
    get_standard_deviation_of_daily_returns [100, 110, 121] [0, 0, 0] =
      specPopulationStd [100, 110, 121] [0, 0, 0] :=
  std_divisor_is_valid_count_c3 [100, 110, 121] [0, 0, 0]
    (by show (2 : ℕ) ≤ 3; norm_num)
    (by
      intro x hx
      have hx' : x ∈ [(100 : ℚ) + 0, 110 + 0] := hx
      rcases List.mem_cons.mp hx' with rfl | hx''
      · norm_num
      · rcases List.mem_cons.mp hx'' with rfl | hx3
        · norm_num
        · exact absurd hx3 (by simp))

/-! ### Claim C9: no DataError is raised -/

/-- Counterexample to C9: with two days of constant portfolio value
100 there is exactly one valid daily return (n = 1 ≤ 1), so the claim
demands a DataError; the code instead returns the numeric value 0. -/
theorem std_numeric_on_single_return_cex_c9 :
    get_standard_deviation_of_daily_returns [100, 100] [0, 0] = some 0 := by
  have hdr : dailyReturns (List.zipWith (fun a b => a + b)
      ([100, 100] : List ℚ) ([0, 0] : List ℚ)) = [none, some 0] := by
    show [none,
        if (100 : ℚ) + 0 = 0 then none
        else some ((100 + 0 - (100 + 0)) / (100 + 0) * 100)]
      = [none, some 0]
    norm_num
  have hvl : validVals [none, some (0 : ℚ)] = [0] := rfl
  have hrad : calc_radicand [none, some (0 : ℚ)] = some 0 := by
    unfold calc_radicand devSqSum nanMean
    simp only [hvl]
    norm_num
  unfold get_standard_deviation_of_daily_returns calculate_standard_deviation
  rw [hdr, hrad]
  simp

/-- Amended C9: the code raises no DataError in the `n ≤ 1` cases:
with two rows and a nonzero first portfolio value (one valid return)
it returns the numeric value 0, and with a single row (no valid
return, the 0/0 divisor case) it yields a NaN result, not an error. -/
theorem std_no_data_error_c9 (p0 p1 c0 c1 : ℚ) (h : p0 + c0 ≠ 0) :
    get_standard_deviation_of_daily_returns [p0, p1] [c0, c1] = some 0 ∧
    get_standard_deviation_of_daily_returns [p0] [c0] = none := by
  constructor
  · unfold get_standard_deviation_of_daily_returns calculate_standard_deviation
    have hz : List.zipWith (fun a b => a + b) [p0, p1] [c0, c1]
        = [p0 + c0, p1 + c1] := rfl
    rw [hz]
    have hdr : dailyReturns [p0 + c0, p1 + c1] =
        [none, some ((p1 + c1 - (p0 + c0)) / (p0 + c0) * 100)] := by
      simp [dailyReturns, dailyReturnsGo, h]
    rw [hdr]
    have hvl : validVals [none, some ((p1 + c1 - (p0 + c0)) / (p0 + c0) * 100)]
        = [(p1 + c1 - (p0 + c0)) / (p0 + c0) * 100] := rfl
    have hrad : calc_radicand
        [none, some ((p1 + c1 - (p0 + c0)) / (p0 + c0) * 100)] = some 0 := by
      unfold calc_radicand devSqSum nanMean
      simp only [hvl]
      norm_num
    rw [hrad]
    simp
  · unfold get_standard_deviation_of_daily_returns calculate_standard_deviation
    have hone : calc_radicand (dailyReturns (List.zipWith (fun a b => a + b)
        [p0] [c0])) = none := by
      simp [calc_radicand, dailyReturns, dailyReturnsGo]
    rw [hone]
    rfl

/-- Witness for amended C9 at concrete values. -/
theorem std_no_data_error_c9_witness :
    get_standard_deviation_of_daily_returns [100, 110] [0, 0] = some 0 ∧
    get_standard_deviation_of_daily_returns [100] [0] = none :=
  std_no_data_error_c9 100 110 0 0 (by norm_num)
